import Mathlib

/-!
Shallow embedding of the openlifter-parser scripts (main1.py, main2.py,
duplicate.py): the division ranking policy, the two deduplication pipelines,
the cohort grouping and display order, the per-metric top-3 ranker, and the
duplicate finder. Numeric CSV fields are strings parsed on demand; Python
floats are modelled as exact decimals (an integer mantissa with a power-of-ten
scale), interpreted into ℚ by `Dec.toRat` when stating order properties.
-/

namespace OpenLifter

/-- ASCII whitespace, the characters str.strip() removes on the inputs
considered here. -/
def isSpaceChar (c : Char) : Bool :=
  c == ' ' || c == '\t' || c == '\n' || c == '\r'

/-- Models Python str.strip(): drop whitespace from both ends. -/
def pyStrip (s : String) : String :=
  ⟨(((s.data.dropWhile isSpaceChar).reverse.dropWhile isSpaceChar).reverse)⟩

/-- Lower-case an ASCII letter, as str.lower() does on the inputs here. -/
def pyLowerChar (c : Char) : Char :=
  if 65 ≤ c.toNat && c.toNat ≤ 90 then Char.ofNat (c.toNat + 32) else c

/-- Models Python str.lower() on ASCII strings. -/
def pyLower (s : String) : String :=
  ⟨s.data.map pyLowerChar⟩

/-- Code-point lexicographic comparison of character lists, as Python
compares strings. -/
def charsLt : List Char → List Char → Bool
  | _, [] => false
  | [], _ :: _ => true
  | a :: as, b :: bs =>
    decide (a.toNat < b.toNat) || (a.toNat == b.toNat && charsLt as bs)

/-- Python string strict comparison a < b. -/
def strLt (a b : String) : Bool := charsLt a.data b.data

/-- Models Python str.isdigit on the ASCII fragment: nonempty and all digits. -/
def pyIsDigit (s : String) : Bool :=
  s.length != 0 && s.data.all Char.isDigit

/-- A Python float value arising from a decimal literal, kept exact:
the rational mant / 10 ^ scale. -/
structure Dec where
  mant : Int
  scale : Nat
deriving DecidableEq

/-- The rational value of a decimal. -/
def Dec.toRat (d : Dec) : ℚ := (d.mant : ℚ) / (10 : ℚ) ^ d.scale

/-- The float value 0.0. -/
def Dec.zero : Dec := ⟨0, 0⟩

/-- Negation of a float value. -/
def Dec.neg (d : Dec) : Dec := ⟨-d.mant, d.scale⟩

/-- Multiply a decimal by 10 ^ k (the exponent part of a float literal). -/
def Dec.applyExp (d : Dec) (k : Int) : Dec :=
  match k with
  | Int.ofNat n => ⟨d.mant * (10 : Int) ^ n, d.scale⟩
  | Int.negSucc n => ⟨d.mant, d.scale + (n + 1)⟩

/-- Python float strict comparison a < b, by cross-multiplication. -/
def Dec.blt (a b : Dec) : Bool :=
  decide (a.mant * (10 : Int) ^ b.scale < b.mant * (10 : Int) ^ a.scale)

/-- Python float equality a == b, by cross-multiplication. -/
def Dec.beq (a b : Dec) : Bool :=
  decide (a.mant * (10 : Int) ^ b.scale = b.mant * (10 : Int) ^ a.scale)

/-- Value of a list of ASCII digit characters read in base 10. -/
def digitsVal (cs : List Char) : Nat :=
  cs.foldl (fun a c => a * 10 + (c.toNat - 48)) 0

/-- Exponent part after the e/E of a float literal: optional sign, digits. -/
def parseExpPart (cs : List Char) : Option Int :=
  match cs with
  | '+' :: ds => if !ds.isEmpty && ds.all Char.isDigit then some (digitsVal ds) else none
  | '-' :: ds => if !ds.isEmpty && ds.all Char.isDigit then some (-(digitsVal ds : Int)) else none
  | ds => if !ds.isEmpty && ds.all Char.isDigit then some (digitsVal ds) else none

/-- Unsigned mantissa with optional fraction and exponent of a float literal. -/
def parseMantExp (cs : List Char) : Option Dec :=
  let ip := cs.takeWhile Char.isDigit
  let rest1 := cs.dropWhile Char.isDigit
  match rest1 with
  | [] => if ip.isEmpty then none else some ⟨digitsVal ip, 0⟩
  | '.' :: rest2 =>
    let fp := rest2.takeWhile Char.isDigit
    let rest3 := rest2.dropWhile Char.isDigit
    if ip.isEmpty && fp.isEmpty then none
    else
      let base : Dec := ⟨digitsVal (ip ++ fp), fp.length⟩
      match rest3 with
      | [] => some base
      | c :: rest4 =>
        if c == 'e' || c == 'E' then (parseExpPart rest4).map base.applyExp
        else none
  | c :: rest4 =>
    if (c == 'e' || c == 'E') && !ip.isEmpty then
      (parseExpPart rest4).map (Dec.applyExp ⟨digitsVal ip, 0⟩)
    else none

/-- Models Python float(s) on finite decimal literals: surrounding whitespace
stripped, optional sign, decimal mantissa, optional exponent; `none` models a
ValueError. The inf/nan/underscore spellings Python also accepts, and the
rounding of the exact decimal value to an IEEE double, are not modelled; no
input in this development exercises them. -/
def pyFloat (s : String) : Option Dec :=
  match (pyStrip s).data with
  | '+' :: cs => parseMantExp cs
  | '-' :: cs => (parseMantExp cs).map Dec.neg
  | cs => parseMantExp cs

/-- main1.safe_float: float(value) with ValueError/TypeError turned into 0.0.
A missing value (Python None) raises TypeError, hence yields 0. -/
def safe_float (value : Option String) : Dec :=
  match value with
  | none => Dec.zero
  | some s =>
    match pyFloat s with
    | some q => q
    | none => Dec.zero

/-- One CSV row as the scripts see it: each expected column is either absent
(`none`, csv.DictReader key missing) or present with its raw string value. -/
structure Row where
  name : Option String := none
  sex : Option String := none
  division : Option String := none
  weightClass : Option String := none
  bodyweight : Option String := none
  squat : Option String := none
  bench : Option String := none
  deadlift : Option String := none
  total : Option String := none
  place : Option String := none
deriving DecidableEq

/-- row.get("Name", "").strip() -/
def trimName (r : Row) : String := pyStrip (r.name.getD "")

/-- row.get("Sex", "").strip() -/
def trimSex (r : Row) : String := pyStrip (r.sex.getD "")

/-- row.get("Division", "").strip() -/
def trimDiv (r : Row) : String := pyStrip (r.division.getD "")

/-- row.get("WeightClassKg", "").strip() -/
def trimWC (r : Row) : String := pyStrip (r.weightClass.getD "")

/-- main2.py: the expected order of divisions. -/
def EXPECTED_DIVISIONS : List String :=
  ["Sub-Junior", "Junior", "M1", "M2", "M3", "Open"]

/-- First index of d in l, as Python list.index (meaningful when d occurs). -/
def listIndex : List String → String → Nat
  | [], _ => 0
  | x :: xs, d => if x = d then 0 else listIndex xs d + 1

/-- main2.get_division_rank: index in EXPECTED_DIVISIONS when present, else
the length of the list (one past the worst expected rank). -/
def get_division_rank (division : String) : Nat :=
  if division ∈ EXPECTED_DIVISIONS then listIndex EXPECTED_DIVISIONS division
  else EXPECTED_DIVISIONS.length

/-- Division rank of a row's trimmed Division field. -/
def rankOf (r : Row) : Nat := get_division_rank (trimDiv r)

/-- Association-list lookup, modelling Python dict indexing (keys are unique). -/
def lookupA {κ β : Type} [BEq κ] (m : List (κ × β)) (k : κ) : Option β :=
  (m.find? (fun e => e.1 == k)).map (fun e => e.2)

/-- Association-list value replacement at an existing key, keeping its
position, modelling assignment to a present Python dict key. -/
def updateA {κ β : Type} [BEq κ] (m : List (κ × β)) (k : κ) (v : β) : List (κ × β) :=
  m.map (fun e => if e.1 == k then (k, v) else e)

/-- One iteration of main2.parse_csv's row loop: skip empty trimmed names,
otherwise keep the stored record unless the new row's division has a strictly
lower rank. -/
def dedupStep (m : List (String × Row)) (row : Row) : List (String × Row) :=
  let name := trimName row
  if name = "" then m
  else
    match lookupA m name with
    | some existing =>
      if get_division_rank (trimDiv row) < get_division_rank (trimDiv existing) then
        updateA m name row
      else m
    | none => m ++ [(name, row)]

/-- main2.parse_csv: fold the rows into a dict keyed by trimmed Name. -/
def parse_csv (rows : List Row) : List (String × Row) :=
  rows.foldl dedupStep []

/-- defaultdict(list)-style append under a key, preserving first-seen key
order as a Python dict does. -/
def addToGroup {κ : Type} [BEq κ] (gs : List (κ × List Row)) (k : κ) (r : Row) :
    List (κ × List Row) :=
  match lookupA gs k with
  | some l => updateA gs k (l ++ [r])
  | none => gs ++ [(k, [r])]

/-- main2.group_athletes: bucket the deduplicated records by
(Sex, WeightClassKg, Division), trimmed. -/
def group_athletes (m : List (String × Row)) :
    List ((String × String × String) × List Row) :=
  m.foldl (fun gs e => addToGroup gs (trimSex e.2, trimWC e.2, trimDiv e.2) e.2) []

/-- The `len`-position decimal digits of a natural number below 10 ^ len,
most significant first, with leading zeros. -/
def padDigits : Nat → Nat → List Char
  | 0, _ => []
  | len + 1, n =>
    Char.ofNat (48 + n / 10 ^ len) :: padDigits len (n % 10 ^ len)

/-- Models Python str() of a float whose value is a short exact decimal (all
the values this development evaluates it on): sign, integer part, a dot, and
the fraction digits with trailing zeros removed ("75.0" for 75, "75.5" for
75.5). Shortest-roundtrip repr of an inexact double is not modelled. -/
def pyFloatStr (d : Dec) : String :=
  let sgn := if d.mant < 0 then "-" else ""
  let m := d.mant.natAbs
  let p := 10 ^ d.scale
  let ds := (((padDigits d.scale (m % p)).reverse.dropWhile (fun c => c == '0')).reverse)
  sgn ++ toString (m / p) ++ "." ++ (if ds.isEmpty then "0" else ⟨ds⟩)

/-- main2.group_sort_key: (sex.lower(), str(weight), division rank) where
weight is float(weightclass) when that parses and the raw string otherwise.
The source wraps the parsed float back in str(), so the middle component is
compared as a string even when the weight class is numeric. -/
def group_sort_key (key : String × String × String) : String × String × Nat :=
  let weightStr :=
    match pyFloat key.2.1 with
    | some w => pyFloatStr w
    | none => key.2.1
  (pyLower key.1, weightStr, get_division_rank key.2.2)

/-- Python tuple comparison on the (String, String, Nat) sort keys of
main2.group_sort_key. -/
def gkeyLt (a b : String × String × Nat) : Bool :=
  strLt a.1 b.1 ||
    (a.1 == b.1 &&
      (strLt a.2.1 b.2.1 || (a.2.1 == b.2.1 && decide (a.2.2 < b.2.2))))

/-- The four ranked lift metrics of main2. -/
inductive Metric : Type
  | squat
  | bench
  | deadlift
  | total
deriving DecidableEq

/-- Column selected by each metric name. -/
def metricCol : Metric → Row → Option String
  | Metric.squat, r => r.squat
  | Metric.bench, r => r.bench
  | Metric.deadlift, r => r.deadlift
  | Metric.total, r => r.total

/-- float(athlete.get(col, 0)) with ValueError turned into 0.0: an absent
column gives float(0) = 0, an unparseable string gives 0. -/
def floatOr0 (v : Option String) : Dec :=
  match v with
  | none => Dec.zero
  | some s =>
    match pyFloat s with
    | some q => q
    | none => Dec.zero

/-- main2.print_group_metric_table's sort_key: (-metric value, bodyweight). -/
def sort_key (metric : Metric) (athlete : Row) : Dec × Dec :=
  ((floatOr0 (metricCol metric athlete)).neg, floatOr0 athlete.bodyweight)

/-- Python tuple comparison on pairs of float values. -/
def qpairLt (a b : Dec × Dec) : Bool :=
  a.1.blt b.1 || (a.1.beq b.1 && a.2.blt b.2)

/-- Insert x after every existing element it does not strictly beat, as
Python's stable sort orders equal keys. -/
def insertLt {α : Type} (lt : α → α → Bool) (x : α) : List α → List α
  | [] => [x]
  | y :: ys => if lt x y then x :: y :: ys else y :: insertLt lt x ys

/-- Models Python sorted(l, key=…): a stable sort with respect to the strict
comparison lt. -/
def pySorted {α : Type} (lt : α → α → Bool) (l : List α) : List α :=
  l.foldl (fun acc x => insertLt lt x acc) []

/-- Record selection of main2.print_group_metric_table: stable sort ascending
by sort_key (metric descending, bodyweight ascending) then the first three. -/
def top_athletes (metric : Metric) (athletes : List Row) : List Row :=
  (pySorted (fun a b => qpairLt (sort_key metric a) (sort_key metric b)) athletes).take 3

/-- main1.py: the preferred division order dictionary. -/
def division_order : List (String × Nat) :=
  [("Sub-Junior", 0), ("Junior", 1), ("M1", 2), ("M2", 3), ("M3", 4), ("Open", 5)]

/-- division_order.get(d, dflt). -/
def division_order_get (d : String) (dflt : Nat) : Nat :=
  match lookupA division_order d with
  | some v => v
  | none => dflt

/-- main1.main's grouping key (Division, Sex, WeightClassKg), trimmed. -/
def main1_key (r : Row) : String × String × String := (trimDiv r, trimSex r, trimWC r)

/-- main1.main: rows whose stripped Place is all digits, grouped by
(Division, Sex, WeightClassKg). -/
def main1_groups (rows : List Row) : List ((String × String × String) × List Row) :=
  rows.foldl
    (fun gs r =>
      if pyIsDigit (pyStrip (r.place.getD "")) then addToGroup gs (main1_key r) r else gs) []

/-- main1.main: each group stably sorted by
(safe_float TotalKg, safe_float BodyweightKg) with reverse=True, i.e.
descending on both components. -/
def main1_sorted_groups (rows : List Row) : List ((String × String × String) × List Row) :=
  (main1_groups rows).map (fun e =>
    (e.1,
      pySorted (fun a b =>
        qpairLt (safe_float b.total, safe_float b.bodyweight)
          (safe_float a.total, safe_float a.bodyweight)) e.2))

/-- main1.main: comparison of group entries by
(division_order.get(div, 999), sex, weight class). -/
def m1entryLt (a b : (String × String × String) × List Row) : Bool :=
  decide (division_order_get a.1.1 999 < division_order_get b.1.1 999) ||
    (division_order_get a.1.1 999 == division_order_get b.1.1 999 &&
      (strLt a.1.2.1 b.1.2.1 || (a.1.2.1 == b.1.2.1 && strLt a.1.2.2 b.1.2.2)))

/-- main1.main: iterate the groups in sorted key order, keeping only the first
occurrence of each (trimmed Name, trimmed Sex). -/
def main1_unique_result (rows : List Row) : List ((String × String × String) × List Row) :=
  let sortedGroups := pySorted m1entryLt (main1_sorted_groups rows)
  (sortedGroups.foldl
      (fun st e =>
        let kept :=
          e.2.foldl
            (fun st2 a =>
              let ident := (trimName a, trimSex a)
              if st2.2.contains ident then st2 else (st2.1 ++ [a], st2.2 ++ [ident]))
            (([] : List Row), st.2)
        (st.1 ++ [(e.1, kept.1)], kept.2))
      (([] : List ((String × String × String) × List Row)), ([] : List (String × String)))).1

/-- The record main1's pipeline retains for a given (Name, Sex) identity. -/
def main1_canonical (rows : List Row) (ident : String × String) : Option Row :=
  (((main1_unique_result rows).map (fun e => e.2)).flatten).find?
    (fun r => (trimName r, trimSex r) == ident)

/-- duplicate.py: add a division to an identity's division set (the Python set
is modelled as a duplicate-free list in first-added order). -/
def addDiv (m : List ((String × String) × List String)) (k : String × String) (d : String) :
    List ((String × String) × List String) :=
  match lookupA m k with
  | some ds => updateA m k (if ds.contains d then ds else ds ++ [d])
  | none => m ++ [(k, [d])]

/-- duplicate.py's row guard: trimmed Name, Sex and Division all nonempty. -/
def validRow (r : Row) : Bool :=
  trimName r != "" && trimSex r != "" && trimDiv r != ""

/-- The (trimmed Name, trimmed Sex) identity of a row. -/
def identOf (r : Row) : String × String := (trimName r, trimSex r)

/-- duplicate.py: divisions seen per (trimmed Name, trimmed Sex), rows with an
empty trimmed Name, Sex or Division skipped. -/
def athletes_divisions (rows : List Row) : List ((String × String) × List String) :=
  rows.foldl
    (fun m r => if validRow r then addDiv m (identOf r) (trimDiv r) else m) []

/-- The trimmed divisions of the valid rows bearing a given identity, in input
order (the specification-side reading of duplicate.py's accumulation). -/
def specDivs (rows : List Row) (k : String × String) : List String :=
  (rows.filter (fun r => validRow r && (identOf r == k))).map trimDiv

/-- Incremental form of duplicate.py's per-identity set update. -/
def addD (o : Option (List String)) (d : String) : Option (List String) :=
  match o with
  | none => some [d]
  | some ds => some (if ds.contains d then ds else ds ++ [d])

/-- Fold of addD over a division list. -/
def accD (o : Option (List String)) (l : List String) : Option (List String) :=
  l.foldl addD o

/-- First-occurrence duplicate removal, from an accumulator. -/
def fdedupGo (acc : List String) (l : List String) : List String :=
  l.foldl (fun acc d => if acc.contains d then acc else acc ++ [d]) acc

/-- First-occurrence duplicate removal. -/
def fdedup (l : List String) : List String := fdedupGo [] l

/-- Witness row for C9 in division Open. -/
def rowC9a : Row := { name := some "Ann", sex := some "M", division := some "Open" }

/-- Witness row for C9 in division M2. -/
def rowC9b : Row := { name := some "Ann", sex := some "M", division := some "M2" }

/-- duplicate.py: the identities whose division set has more than one element,
each with its divisions sorted. -/
def duplicates (rows : List Row) : List ((String × String) × List String) :=
  (athletes_divisions rows).filterMap (fun e =>
    if 1 < e.2.length then some (e.1, pySorted strLt e.2) else none)

/-- The input rows whose trimmed Name equals n. -/
def nameRows (rows : List Row) (n : String) : List Row :=
  rows.filter (fun r => trimName r == n)

/-- The specification's deduplication policy, stated declaratively: the first
record whose division rank is minimal among the given records. -/
def keepSpec (l : List Row) : Option Row :=
  l.find? (fun r => l.all (fun s => decide (rankOf r ≤ rankOf s)))

/-- Incremental form of main2's per-name choice: keep the stored record unless
the new one has a strictly lower rank. -/
def pickBest (o : Option Row) (r : Row) : Option Row :=
  match o with
  | none => some r
  | some b => if rankOf r < rankOf b then some r else some b

/-- Fold of pickBest over a record list. -/
def bestOpt (o : Option Row) (l : List Row) : Option Row :=
  l.foldl pickBest o

/-- Recursive form of "first record of minimal rank". -/
def firstMin : List Row → Option Row
  | [] => none
  | r :: rs =>
    match firstMin rs with
    | none => some r
    | some b => if rankOf b < rankOf r then some b else some r

/-- The trimmed Division values occurring with a trimmed Name in the input. -/
def divsOf (rows : List Row) (n : String) : List String :=
  (nameRows rows n).map trimDiv

/-- The trimmed Division of the record main2's dedup keeps for a name. -/
def keptDiv (rows : List Row) (n : String) : Option String :=
  (lookupA (parse_csv rows) n).map trimDiv

/-- Counterexample rows for C1: same trimmed name, different trimmed sexes. -/
def rowC1a : Row := { name := some "Ann", sex := some "M", division := some "Open" }

/-- Second counterexample row for C1. -/
def rowC1b : Row := { name := some "Ann", sex := some "F", division := some "M1" }

/-- Witness rows for C1's amended theorem. -/
def rowC1w1 : Row := { name := some "Ann ", sex := some "F", division := some "Open" }

/-- Second witness row for C1's amended theorem. -/
def rowC1w2 : Row := { name := some "Ann", sex := some "F", division := some "M1" }

/-- Counterexample rows for C2: the (Ann, F) identity's only record. -/
def rowC2a : Row := { name := some "Ann", sex := some "M", division := some "M1" }

/-- Second counterexample row for C2. -/
def rowC2b : Row := { name := some "Ann", sex := some "F", division := some "Open" }

/-- Witness rows for C2: the spec's Open/M1 example. -/
def rowC2w1 : Row := { name := some "Alice", sex := some "F", division := some "Open" }

/-- Second witness row for C2. -/
def rowC2w2 : Row := { name := some "Alice", sex := some "F", division := some "M1" }

/-- Counterexample row for C4: empty trimmed sex, nonempty name and division. -/
def rowC4 : Row := { name := some "Bob", sex := some " ", division := some "Open" }

/-- Witness row for C4's amended theorem. -/
def rowC4w : Row := { name := some " Eve ", sex := some "F", division := some "Open" }

/-- Witness row for C7 in division Open. -/
def rowC7a : Row := { name := some "Zed", sex := some "M", division := some "Open" }

/-- Witness row for C7 in division M1. -/
def rowC7b : Row := { name := some "Zed", sex := some "M", division := some "M1" }

/-- First C8 row: weight class 90, seen first. -/
def rowC8a : Row := { name := some "A", sex := some "M", division := some "Open",
                      weightClass := some "90", bodyweight := some "80",
                      total := some "100", place := some "1" }

/-- Second C8 row: weight class 80, seen second. -/
def rowC8b : Row := { name := some "A", sex := some "M", division := some "Open",
                      weightClass := some "80", bodyweight := some "70",
                      total := some "90", place := some "1" }

/-- The numeric value a metric contributes for a record (0 default). -/
def metricVal (metric : Metric) (r : Row) : ℚ := (floatOr0 (metricCol metric r)).toRat

/-- The numeric bodyweight of a record (0 default). -/
def bwVal (r : Row) : ℚ := (floatOr0 r.bodyweight).toRat

/-- The dict invariant of parse_csv: every entry is keyed by its record's
nonempty trimmed name, and keys are pairwise distinct. -/
def entriesWF (m : List (String × Row)) : Prop :=
  (∀ e ∈ m, e.1 = trimName e.2 ∧ e.1 ≠ "") ∧ (m.map Prod.fst).Nodup

theorem lookupA_cons {κ β : Type} [BEq κ] (e : κ × β) (m : List (κ × β)) (n : κ) :
    lookupA (e :: m) n = if e.1 == n then some e.2 else lookupA m n := by
  cases h : e.1 == n <;> simp [lookupA, List.find?_cons, h]

theorem updateA_cons {κ β : Type} [BEq κ] (e : κ × β) (m : List (κ × β)) (k : κ) (v : β) :
    updateA (e :: m) k v = (if e.1 == k then (k, v) else e) :: updateA m k v := rfl

theorem lookupA_append_single {κ β : Type} [BEq κ] (m : List (κ × β)) (k n : κ) (v : β) :
    lookupA (m ++ [(k, v)]) n =
      match lookupA m n with
      | some b => some b
      | none => if k == n then some v else none := by
  induction m with
  | nil =>
    cases h : k == n <;> simp [lookupA, List.find?, h]
  | cons e m ih =>
    rw [List.cons_append, lookupA_cons, lookupA_cons]
    cases h : e.1 == n <;> simp [h, ih]

section AssocLemmas

variable {κ β : Type} [BEq κ] [LawfulBEq κ]

theorem lookupA_update_self (m : List (κ × β)) (k : κ) (v : β) (b : β)
    (h : lookupA m k = some b) : lookupA (updateA m k v) k = some v := by
  induction m with
  | nil => simp [lookupA] at h
  | cons e m ih =>
    rw [updateA_cons]
    cases he : e.1 == k with
    | true => simp [lookupA_cons]
    | false =>
      rw [lookupA_cons, if_neg (by simp [he])] at h
      simp [lookupA_cons, he, ih h]

theorem lookupA_update_ne (m : List (κ × β)) (k n : κ) (v : β)
    (h : (k == n) = false) : lookupA (updateA m k v) n = lookupA m n := by
  induction m with
  | nil => simp [lookupA, updateA]
  | cons e m ih =>
    rw [updateA_cons]
    cases he : e.1 == k with
    | true =>
      have h1 : e.1 = k := eq_of_beq he
      simp [lookupA_cons, h, h1, ih]
    | false =>
      cases hn : e.1 == n <;> simp [lookupA_cons, hn, ih]

theorem lookupA_eq_none_iff (m : List (κ × β)) (n : κ) :
    lookupA m n = none ↔ ∀ e ∈ m, (e.1 == n) = false := by
  simp [lookupA, List.find?_eq_none]

end AssocLemmas

theorem nameRows_nil (n : String) : nameRows [] n = [] := rfl

theorem nameRows_cons (r : Row) (rs : List Row) (n : String) :
    nameRows (r :: rs) n =
      if trimName r = n then r :: nameRows rs n else nameRows rs n := by
  simp only [nameRows, List.filter_cons, beq_iff_eq]

theorem bestOpt_append_single (o : Option Row) (l : List Row) (r : Row) :
    bestOpt o (l ++ [r]) = pickBest (bestOpt o l) r := by
  simp [bestOpt, List.foldl_append]

/-- The key step lemma: how one dedupStep changes the lookup at a name. -/
theorem lookupA_dedupStep (m : List (String × Row)) (r : Row) (n : String)
    (hn : n ≠ "") :
    lookupA (dedupStep m r) n =
      if trimName r = n then pickBest (lookupA m n) r else lookupA m n := by
  simp only [dedupStep]
  by_cases hrn : trimName r = n
  · rw [if_pos hrn, hrn, if_neg hn]
    cases hlk : lookupA m n with
    | none =>
      show lookupA (m ++ [(n, r)]) n = pickBest none r
      rw [lookupA_append_single, hlk]
      simp [pickBest]
    | some b =>
      show lookupA
          (if get_division_rank (trimDiv r) < get_division_rank (trimDiv b) then
            updateA m n r
          else m) n = pickBest (some b) r
      simp only [pickBest, rankOf]
      by_cases hcmp : get_division_rank (trimDiv r) < get_division_rank (trimDiv b)
      · rw [if_pos hcmp, if_pos hcmp]
        exact lookupA_update_self m n r b hlk
      · rw [if_neg hcmp, if_neg hcmp, hlk]
  · rw [if_neg hrn]
    by_cases hre : trimName r = ""
    · rw [if_pos hre]
    · rw [if_neg hre]
      cases hlk : lookupA m (trimName r) with
      | none =>
        show lookupA (m ++ [(trimName r, r)]) n = lookupA m n
        rw [lookupA_append_single]
        cases hn2 : lookupA m n with
        | none => simp [show (trimName r == n) = false by simp [hrn]]
        | some b => simp
      | some b =>
        show lookupA
            (if get_division_rank (trimDiv r) < get_division_rank (trimDiv b) then
              updateA m (trimName r) r
            else m) n = lookupA m n
        by_cases hcmp : get_division_rank (trimDiv r) < get_division_rank (trimDiv b)
        · rw [if_pos hcmp]
          exact lookupA_update_ne m (trimName r) n r (by simp [hrn])
        · rw [if_neg hcmp]

/-- Lookup in main2's fold, characterised per name against the untouched
input: it is the pickBest-fold over the rows bearing that name. -/
theorem lookupA_foldl_dedup (rows : List Row) (m : List (String × Row)) (n : String)
    (hn : n ≠ "") :
    lookupA (rows.foldl dedupStep m) n = bestOpt (lookupA m n) (nameRows rows n) := by
  induction rows generalizing m with
  | nil => simp [bestOpt, nameRows]
  | cons r rs ih =>
    simp only [List.foldl_cons]
    rw [ih (dedupStep m r), lookupA_dedupStep m r n hn, nameRows_cons]
    by_cases hrn : trimName r = n
    · rw [if_pos hrn, if_pos hrn]
      rfl
    · rw [if_neg hrn, if_neg hrn]

theorem bestOpt_some (b : Row) (l : List Row) :
    bestOpt (some b) l =
      match firstMin l with
      | none => some b
      | some c => if rankOf c < rankOf b then some c else some b := by
  induction l generalizing b with
  | nil => rfl
  | cons x xs ih =>
    show bestOpt (pickBest (some b) x) xs = _
    have hpb : pickBest (some b) x = some (if rankOf x < rankOf b then x else b) := by
      by_cases h : rankOf x < rankOf b <;> simp [pickBest, h]
    rw [hpb, ih]
    cases hc : firstMin xs with
    | none =>
      simp only [firstMin, hc]
      split_ifs <;> rfl
    | some c =>
      simp only [firstMin, hc]
      by_cases hcx : rankOf c < rankOf x
      · simp only [if_pos hcx]
        split_ifs <;> first | rfl | (exfalso; omega)
      · simp only [if_neg hcx]
        split_ifs <;> first | rfl | (exfalso; omega)

theorem bestOpt_none (l : List Row) : bestOpt none l = firstMin l := by
  cases l with
  | nil => rfl
  | cons x xs =>
    show bestOpt (some x) xs = _
    rw [bestOpt_some]
    cases hc : firstMin xs with
    | none => simp only [firstMin, hc]
    | some c => simp only [firstMin, hc]

theorem firstMin_eq_none (l : List Row) : firstMin l = none ↔ l = [] := by
  cases l with
  | nil => simp [firstMin]
  | cons x xs =>
    cases hc : firstMin xs with
    | none => simp [firstMin, hc]
    | some c =>
      simp only [firstMin, hc]
      split_ifs <;> simp

theorem firstMin_mem (l : List Row) : ∀ r, firstMin l = some r → r ∈ l := by
  induction l with
  | nil => intro r h; simp [firstMin] at h
  | cons x xs ih =>
    intro r h
    cases hc : firstMin xs with
    | none =>
      simp only [firstMin, hc] at h
      have hxr : x = r := by simpa using h
      exact hxr ▸ List.mem_cons_self x xs
    | some c =>
      simp only [firstMin, hc] at h
      by_cases hlt : rankOf c < rankOf x
      · rw [if_pos hlt] at h
        have hcr : c = r := by simpa using h
        exact List.mem_cons_of_mem x (hcr ▸ ih c hc)
      · rw [if_neg hlt] at h
        have hxr : x = r := by simpa using h
        exact hxr ▸ List.mem_cons_self x xs

theorem firstMin_min (l : List Row) :
    ∀ r, firstMin l = some r → ∀ s ∈ l, rankOf r ≤ rankOf s := by
  induction l with
  | nil => intro r h; simp [firstMin] at h
  | cons x xs ih =>
    intro r h s hs
    cases hc : firstMin xs with
    | none =>
      simp only [firstMin, hc] at h
      have hxr : x = r := by simpa using h
      have hxs : xs = [] := (firstMin_eq_none xs).mp hc
      subst hxr; subst hxs
      simp at hs
      subst hs
      exact le_refl _
    | some c =>
      simp only [firstMin, hc] at h
      by_cases hlt : rankOf c < rankOf x
      · rw [if_pos hlt] at h
        have hcr : c = r := by simpa using h
        subst hcr
        rcases List.mem_cons.mp hs with hsx | hsxs
        · subst hsx; omega
        · exact ih c hc s hsxs
      · rw [if_neg hlt] at h
        have hxr : x = r := by simpa using h
        subst hxr
        rcases List.mem_cons.mp hs with hsx | hsxs
        · subst hsx; exact le_refl _
        · have := ih c hc s hsxs
          omega

theorem find?_congr {α : Type} (p q : α → Bool) (l : List α)
    (h : ∀ x ∈ l, p x = q x) : l.find? p = l.find? q := by
  induction l with
  | nil => rfl
  | cons x xs ih =>
    rw [List.find?_cons, List.find?_cons, h x (List.mem_cons_self x xs)]
    cases hq : q x with
    | true => rfl
    | false => exact ih (fun y hy => h y (List.mem_cons_of_mem x hy))

theorem firstMin_eq_keepSpec (l : List Row) : firstMin l = keepSpec l := by
  induction l with
  | nil => rfl
  | cons x xs ih =>
    cases hc : firstMin xs with
    | none =>
      have hxs : xs = [] := (firstMin_eq_none xs).mp hc
      subst hxs
      simp [firstMin, keepSpec, List.find?]
    | some c =>
      simp only [firstMin, hc, keepSpec]
      by_cases hlt : rankOf c < rankOf x
      · rw [if_pos hlt, List.find?_cons]
        have hcx : c ∈ xs := firstMin_mem xs c hc
        have hpx : ((x :: xs).all (fun s => decide (rankOf x ≤ rankOf s))) = false := by
          cases hall : ((x :: xs).all (fun s => decide (rankOf x ≤ rankOf s))) with
          | false => rfl
          | true =>
            have h2 := List.all_eq_true.mp hall c (List.mem_cons_of_mem x hcx)
            simp at h2
            omega
        simp only [hpx]
        have hcongr : xs.find? (fun r => (x :: xs).all (fun s => decide (rankOf r ≤ rankOf s)))
            = xs.find? (fun r => xs.all (fun s => decide (rankOf r ≤ rankOf s))) := by
          apply find?_congr
          intro y hy
          cases hq : xs.all (fun s => decide (rankOf y ≤ rankOf s)) with
          | true =>
            have hyc := List.all_eq_true.mp hq c hcx
            simp at hyc
            rw [List.all_cons, hq]
            simp
            omega
          | false =>
            rw [List.all_cons, hq]
            simp
        rw [hcongr]
        have hks : xs.find? (fun r => xs.all (fun s => decide (rankOf r ≤ rankOf s)))
            = keepSpec xs := rfl
        rw [hks, ← ih, hc]
      · rw [if_neg hlt, List.find?_cons]
        have hpx : ((x :: xs).all (fun s => decide (rankOf x ≤ rankOf s))) = true := by
          rw [List.all_eq_true]
          intro s hs
          rcases List.mem_cons.mp hs with h1 | h2
          · subst h1; simp
          · have := firstMin_min xs c hc s h2
            simp
            omega
        simp only [hpx]

/-- Per-name characterisation of main2.parse_csv's whole dedup pass: the
lookup at a nonempty name is the specification's choice over the rows bearing
that name. -/
theorem parse_csv_lookup (rows : List Row) (n : String) (hn : n ≠ "") :
    lookupA (parse_csv rows) n = keepSpec (nameRows rows n) := by
  have h1 := lookupA_foldl_dedup rows [] n hn
  have h2 : lookupA ([] : List (String × Row)) n = none := rfl
  rw [h2, bestOpt_none, firstMin_eq_keepSpec] at h1
  exact h1

theorem entriesWF_dedupStep (m : List (String × Row)) (r : Row)
    (h : entriesWF m) : entriesWF (dedupStep m r) := by
  simp only [dedupStep]
  by_cases hre : trimName r = ""
  · rw [if_pos hre]; exact h
  · rw [if_neg hre]
    cases hlk : lookupA m (trimName r) with
    | none =>
      show entriesWF (m ++ [(trimName r, r)])
      constructor
      · intro e he
        rcases List.mem_append.mp he with h1 | h2
        · exact h.1 e h1
        · simp at h2
          subst h2
          exact ⟨rfl, hre⟩
      · rw [List.map_append]
        apply (List.nodup_append).mpr
        refine ⟨h.2, List.nodup_singleton _, ?_⟩
        intro a ha hb
        simp at hb
        subst hb
        rcases List.mem_map.mp ha with ⟨e, he, hfst⟩
        have hnone := (lookupA_eq_none_iff m (trimName r)).mp hlk e he
        rw [hfst] at hnone
        simp at hnone
    | some b =>
      show entriesWF
        (if get_division_rank (trimDiv r) < get_division_rank (trimDiv b) then
          updateA m (trimName r) r
        else m)
      by_cases hcmp : get_division_rank (trimDiv r) < get_division_rank (trimDiv b)
      · rw [if_pos hcmp]
        show entriesWF (updateA m (trimName r) r)
        constructor
        · intro e he
          rcases List.mem_map.mp he with ⟨e0, he0, heq⟩
          by_cases h0 : (e0.1 == trimName r) = true
          · rw [if_pos h0] at heq
            subst heq
            exact ⟨rfl, hre⟩
          · rw [if_neg h0] at heq
            subst heq
            exact h.1 e0 he0
        · have hkeys : (updateA m (trimName r) r).map Prod.fst = m.map Prod.fst := by
            simp only [updateA, List.map_map]
            apply List.map_congr_left
            intro e he
            by_cases h0 : (e.1 == trimName r) = true
            · simp [h0, eq_of_beq h0]
            · have h0' : ¬e.1 = trimName r := by simpa using h0
              simp [h0']
          rw [hkeys]
          exact h.2
      · rw [if_neg hcmp]; exact h

theorem foldl_dedup_WF (rows : List Row) (m : List (String × Row))
    (h : entriesWF m) : entriesWF (rows.foldl dedupStep m) := by
  induction rows generalizing m with
  | nil => exact h
  | cons r rs ih => exact ih (dedupStep m r) (entriesWF_dedupStep m r h)

theorem parse_csv_WF (rows : List Row) : entriesWF (parse_csv rows) :=
  foldl_dedup_WF rows [] ⟨by simp, List.nodup_nil⟩

theorem lookupA_mem {κ β : Type} [BEq κ] [LawfulBEq κ] {m : List (κ × β)} {n : κ} {v : β}
    (h : lookupA m n = some v) : (n, v) ∈ m := by
  simp only [lookupA, Option.map_eq_some'] at h
  obtain ⟨e, he, hev⟩ := h
  have hmem := List.mem_of_find?_eq_some he
  have hp := List.find?_some he
  have h1 : e.1 = n := eq_of_beq hp
  have : (n, v) = e := by rw [← h1, ← hev]
  rw [this]
  exact hmem

theorem lookupA_isSome_of_mem {κ β : Type} [BEq κ] [LawfulBEq κ] {m : List (κ × β)}
    {n : κ} {r : β} (h : (n, r) ∈ m) : ∃ v, lookupA m n = some v := by
  cases hl : lookupA m n with
  | none =>
    have := (lookupA_eq_none_iff m n).mp hl (n, r) h
    simp at this
  | some v => exact ⟨v, rfl⟩

theorem keepSpec_isSome_iff (l : List Row) : (keepSpec l).isSome ↔ l ≠ [] := by
  rw [← firstMin_eq_keepSpec]
  cases hc : firstMin l with
  | none => simpa using (firstMin_eq_none l).mp hc
  | some c =>
    simp only [Option.isSome_some]
    constructor
    · intro _ hnil
      subst hnil
      simp [firstMin] at hc
    · intro _; trivial

theorem keepSpec_mem {l : List Row} {r : Row} (h : keepSpec l = some r) : r ∈ l :=
  firstMin_mem l r (by rw [firstMin_eq_keepSpec]; exact h)

theorem keepSpec_min {l : List Row} {r : Row} (h : keepSpec l = some r) :
    ∀ s ∈ l, rankOf r ≤ rankOf s :=
  firstMin_min l r (by rw [firstMin_eq_keepSpec]; exact h)

theorem keptDiv_eq (rows : List Row) (n : String) (hn : n ≠ "") :
    keptDiv rows n = (keepSpec (nameRows rows n)).map trimDiv := by
  rw [keptDiv, parse_csv_lookup rows n hn]

/-- C1, counterexample: two records with equal trimmed names but different
trimmed sexes are nonetheless merged by main2's deduplicator — only a single
canonical record remains — refuting "merged if and only if both their trimmed
names and their trimmed sexes are equal". -/
theorem claim_C1_counterexample :
    parse_csv [rowC1a, rowC1b] = [("Ann", rowC1b)] ∧
      trimName rowC1a = trimName rowC1b ∧ trimSex rowC1a ≠ trimSex rowC1b := by
  refine ⟨by decide, by decide, by decide⟩

/-- C1, amended: main2's deduplicator treats athlete identity as the trimmed
name alone — an entry for a nonempty name exists after dedup iff some input
record bears that trimmed name, and at most one canonical record exists per
trimmed name. -/
theorem claim_C1_theorem (rows : List Row) (n : String) (hn : n ≠ "") :
    ((parse_csv rows).map Prod.fst).Nodup ∧
      ((∃ r, (n, r) ∈ parse_csv rows) ↔ ∃ r ∈ rows, trimName r = n) := by
  refine ⟨(parse_csv_WF rows).2, ?_, ?_⟩
  · rintro ⟨r, hr⟩
    obtain ⟨v, hv⟩ := lookupA_isSome_of_mem hr
    rw [parse_csv_lookup rows n hn] at hv
    have hmem := keepSpec_mem hv
    simp only [nameRows, List.mem_filter, beq_iff_eq] at hmem
    exact ⟨v, hmem.1, hmem.2⟩
  · rintro ⟨r, hr, hname⟩
    have hne : nameRows rows n ≠ [] := by
      intro hnil
      have : r ∈ nameRows rows n := by
        simp only [nameRows, List.mem_filter, beq_iff_eq]
        exact ⟨hr, hname⟩
      rw [hnil] at this
      simp at this
    have hsome := (keepSpec_isSome_iff (nameRows rows n)).mpr hne
    obtain ⟨v, hv⟩ := Option.isSome_iff_exists.mp hsome
    have hlk : lookupA (parse_csv rows) n = some v := by
      rw [parse_csv_lookup rows n hn]; exact hv
    exact ⟨v, lookupA_mem hlk⟩

/-- C1, witness: the amended theorem applied to a concrete two-row input. -/
theorem claim_C1_witness :
    ((parse_csv [rowC1w1, rowC1w2]).map Prod.fst).Nodup ∧
      ((∃ r, ("Ann", r) ∈ parse_csv [rowC1w1, rowC1w2]) ↔
        ∃ r ∈ [rowC1w1, rowC1w2], trimName r = "Ann") :=
  claim_C1_theorem [rowC1w1, rowC1w2] "Ann" (by decide)

/-- C2, counterexample: for the athlete identity (Ann, F), the identity's only
record (hence its lowest-ranked one) is rowC2b, yet after deduplication no
canonical record equals rowC2b — the dedup key is the name alone, so the
(Ann, M) record in division M1 shadows it. This refutes the claim read with
AthleteIdentity = (name, sex). -/
theorem claim_C2_counterexample :
    parse_csv [rowC2a, rowC2b] = [("Ann", rowC2a)] ∧
      trimName rowC2b = "Ann" ∧ trimSex rowC2b = "F" ∧ trimSex rowC2a ≠ "F" ∧
      rowC2a ≠ rowC2b := by
  refine ⟨by decide, by decide, by decide, by decide, by decide⟩

/-- C2, amended: with identity taken as the trimmed name (main2's actual dedup
key), the deduplicator keeps, for every nonempty name, exactly the first
record among that name's records whose division rank is minimal. -/
theorem claim_C2_theorem (rows : List Row) (n : String) (hn : n ≠ "") :
    lookupA (parse_csv rows) n = keepSpec (nameRows rows n) :=
  parse_csv_lookup rows n hn

/-- C2, witness: on the spec's example input the kept record is the M1 one. -/
theorem claim_C2_witness :
    lookupA (parse_csv [rowC2w1, rowC2w2]) "Alice" = keepSpec (nameRows [rowC2w1, rowC2w2] "Alice") ∧
      keepSpec (nameRows [rowC2w1, rowC2w2] "Alice") = some rowC2w2 :=
  ⟨claim_C2_theorem [rowC2w1, rowC2w2] "Alice" (by decide), by decide⟩

/-- C4, counterexample: a record whose trimmed Sex is empty is not excluded by
main2 — it becomes the canonical record for its name and populates a cohort —
refuting "every record with empty trimmed name, sex, or division is excluded
before deduplication". -/
theorem claim_C4_counterexample :
    parse_csv [rowC4] = [("Bob", rowC4)] ∧ trimSex rowC4 = "" ∧
      group_athletes (parse_csv [rowC4]) = [(("", "", "Open"), [rowC4])] := by
  refine ⟨by decide, by decide, by decide⟩

/-- C4, amended: only records whose trimmed name is empty are excluded before
main2's deduplication — every canonical record is keyed by its own nonempty
trimmed name (records with empty sex or division survive; only duplicate.py's
duplicate finder also skips those). -/
theorem claim_C4_theorem (rows : List Row) :
    ∀ e ∈ parse_csv rows, e.1 = trimName e.2 ∧ trimName e.2 ≠ "" := by
  intro e he
  have h := (parse_csv_WF rows).1 e he
  exact ⟨h.1, h.1 ▸ h.2⟩

/-- C4, witness: the amended theorem applied to the dedup of one concrete row. -/
theorem claim_C4_witness :
    ("Eve", rowC4w).1 = trimName ("Eve", rowC4w).2 ∧ trimName ("Eve", rowC4w).2 ≠ "" :=
  claim_C4_theorem [rowC4w] ("Eve", rowC4w) (by decide)

/-- C6: get_division_rank is total by construction; every division string
outside the canonical list gets rank exactly one greater than Open's (the
worst canonical rank), hence ranks strictly worse than every canonical
division. -/
theorem claim_C6_theorem (d : String) (hd : d ∉ EXPECTED_DIVISIONS) :
    get_division_rank d = get_division_rank "Open" + 1 ∧
      ∀ c ∈ EXPECTED_DIVISIONS, get_division_rank c < get_division_rank d := by
  have h6 : get_division_rank d = 6 := by
    rw [get_division_rank, if_neg hd]
    rfl
  constructor
  · rw [h6]; decide
  · intro c hc
    rw [h6]
    fin_cases hc <;> decide

/-- C6, witness: the unexpected division "Masters-X" ranks exactly one past
Open and strictly worse than every canonical division. -/
theorem claim_C6_witness :
    "Masters-X" ∉ EXPECTED_DIVISIONS ∧
      get_division_rank "Masters-X" = get_division_rank "Open" + 1 ∧
      ∀ c ∈ EXPECTED_DIVISIONS, get_division_rank c < get_division_rank "Masters-X" :=
  ⟨by decide, claim_C6_theorem "Masters-X" (by decide)⟩

theorem keptDiv_mem_min (rows : List Row) (n : String) (hn : n ≠ "") (d1 : String)
    (h : keptDiv rows n = some d1) :
    d1 ∈ divsOf rows n ∧ ∀ d ∈ divsOf rows n, get_division_rank d1 ≤ get_division_rank d := by
  rw [keptDiv_eq rows n hn] at h
  obtain ⟨r, hr, hrd⟩ := Option.map_eq_some'.mp h
  have hmem := keepSpec_mem hr
  have hmin := keepSpec_min hr
  constructor
  · exact hrd ▸ List.mem_map_of_mem trimDiv hmem
  · intro d hd
    obtain ⟨s, hs, hsd⟩ := List.mem_map.mp hd
    have hle := hmin s hs
    rw [← hrd, ← hsd]
    simpa [rankOf] using hle

theorem keptDiv_isSome_iff (rows : List Row) (n : String) (hn : n ≠ "") :
    (keptDiv rows n).isSome ↔ divsOf rows n ≠ [] := by
  rw [keptDiv_eq rows n hn]
  have h1 : ((keepSpec (nameRows rows n)).map trimDiv).isSome
      = (keepSpec (nameRows rows n)).isSome := by
    cases keepSpec (nameRows rows n) <;> rfl
  rw [h1, keepSpec_isSome_iff]
  unfold divsOf
  rw [ne_eq, ne_eq, List.map_eq_nil_iff]

/-- C7: for inputs whose per-name division sets agree, main2's dedup keeps a
division of minimal rank on both, the kept ranks agree, and whenever the
minimal-rank division value is unique the kept division is identical — input
order can only influence the choice among divisions of equal rank. -/
theorem claim_C7_theorem (rows1 rows2 : List Row) (n : String) (hn : n ≠ "")
    (hset : ∀ d, d ∈ divsOf rows1 n ↔ d ∈ divsOf rows2 n) :
    ((keptDiv rows1 n).isSome ↔ (keptDiv rows2 n).isSome) ∧
      (∀ d1, keptDiv rows1 n = some d1 →
        d1 ∈ divsOf rows1 n ∧
          ∀ d ∈ divsOf rows1 n, get_division_rank d1 ≤ get_division_rank d) ∧
      (∀ d1 d2, keptDiv rows1 n = some d1 → keptDiv rows2 n = some d2 →
        get_division_rank d1 = get_division_rank d2 ∧
          ((∀ d ∈ divsOf rows1 n, get_division_rank d = get_division_rank d1 → d = d1) →
            d1 = d2)) := by
  have hne : divsOf rows1 n ≠ [] ↔ divsOf rows2 n ≠ [] := by
    constructor
    · intro h hnil
      obtain ⟨d, hd⟩ := List.exists_mem_of_ne_nil _ h
      have := (hset d).mp hd
      rw [hnil] at this
      simp at this
    · intro h hnil
      obtain ⟨d, hd⟩ := List.exists_mem_of_ne_nil _ h
      have := (hset d).mpr hd
      rw [hnil] at this
      simp at this
  refine ⟨?_, ?_, ?_⟩
  · rw [keptDiv_isSome_iff rows1 n hn, keptDiv_isSome_iff rows2 n hn]
    exact hne
  · intro d1 hd1
    exact keptDiv_mem_min rows1 n hn d1 hd1
  · intro d1 d2 hd1 hd2
    have m1 := keptDiv_mem_min rows1 n hn d1 hd1
    have m2 := keptDiv_mem_min rows2 n hn d2 hd2
    have hd2in1 : d2 ∈ divsOf rows1 n := (hset d2).mpr m2.1
    have hd1in2 : d1 ∈ divsOf rows2 n := (hset d1).mp m1.1
    have heq : get_division_rank d1 = get_division_rank d2 :=
      le_antisymm (m1.2 d2 hd2in1) (m2.2 d1 hd1in2)
    exact ⟨heq, fun hu => (hu d2 hd2in1 heq.symm).symm⟩

/-- C7, witness: the theorem applied to a concrete input and its reversal. -/
theorem claim_C7_witness :
    ((keptDiv [rowC7a, rowC7b] "Zed").isSome ↔ (keptDiv [rowC7b, rowC7a] "Zed").isSome) ∧
      (∀ d1, keptDiv [rowC7a, rowC7b] "Zed" = some d1 →
        d1 ∈ divsOf [rowC7a, rowC7b] "Zed" ∧
          ∀ d ∈ divsOf [rowC7a, rowC7b] "Zed",
            get_division_rank d1 ≤ get_division_rank d) ∧
      (∀ d1 d2, keptDiv [rowC7a, rowC7b] "Zed" = some d1 →
        keptDiv [rowC7b, rowC7a] "Zed" = some d2 →
        get_division_rank d1 = get_division_rank d2 ∧
          ((∀ d ∈ divsOf [rowC7a, rowC7b] "Zed",
              get_division_rank d = get_division_rank d1 → d = d1) →
            d1 = d2)) := by
  apply claim_C7_theorem [rowC7a, rowC7b] [rowC7b, rowC7a] "Zed" (by decide)
  intro d
  have e1 : divsOf [rowC7a, rowC7b] "Zed" = ["Open", "M1"] := by decide
  have e2 : divsOf [rowC7b, rowC7a] "Zed" = ["M1", "Open"] := by decide
  rw [e1, e2]
  constructor <;> intro h <;> simp only [List.mem_cons, List.not_mem_nil, or_false] at h ⊢ <;>
    tauto

/-- C5: the display comparator orders the cohort with numeric weight class 100
before the one with weight class 75 (same sex and division), because
group_sort_key compares str(float(weightclass)) lexically — "100.0" < "75.0" —
although both classes parse numerically and 75 < 100. This contradicts the
function's own docstring "WeightClassKg (numerically if possible)". -/
theorem claim_C5_theorem :
    pyFloat "75" = some ⟨75, 0⟩ ∧ pyFloat "100" = some ⟨100, 0⟩ ∧
      Dec.toRat ⟨75, 0⟩ < Dec.toRat ⟨100, 0⟩ ∧
      group_sort_key ("F", "75", "Open") = ("f", "75.0", 5) ∧
      group_sort_key ("F", "100", "Open") = ("f", "100.0", 5) ∧
      gkeyLt (group_sort_key ("F", "100", "Open")) (group_sort_key ("F", "75", "Open")) = true := by
  refine ⟨by decide, by decide, ?_, by decide, by decide, by decide⟩
  simp only [Dec.toRat]
  norm_num

/-- C8: the two dedup policies disagree — on this input main2's rank-comparing
parse_csv keeps the first-seen row (weight class 90), while main1's
group-iteration dedup visits the (Open, M, 80) group first (sorted group
order) and keeps the other row for the same (Name, Sex) identity. -/
theorem claim_C8_theorem :
    ∃ (rows : List Row) (ident : String × String) (r1 r2 : Row),
      lookupA (parse_csv rows) ident.1 = some r1 ∧
        main1_canonical rows ident = some r2 ∧ r1 ≠ r2 ∧
        trimName r1 = ident.1 ∧ trimSex r1 = ident.2 := by
  refine ⟨[rowC8a, rowC8b], ("A", "M"), rowC8a, rowC8b, by decide, by decide, by decide,
    by decide, by decide⟩

/-- C10, counterexample: safe_float returns the float value 0.0 on the input
"0", which is neither None nor unparseable — refuting "returns 0.0 exactly
when the input is None or cannot be parsed as a float". -/
theorem claim_C10_counterexample :
    (safe_float (some "0")).toRat = 0 ∧ some "0" ≠ (none : Option String) ∧
      pyFloat "0" ≠ none := by
  refine ⟨?_, by decide, by decide⟩
  have h : safe_float (some "0") = ⟨0, 0⟩ := by decide
  rw [h]
  simp [Dec.toRat]

/-- C10, amended: safe_float is total (it is a Lean function into Dec, so it
returns a float value on every input and can model no exception); it returns
0.0 when the input is None or fails to parse, and the parsed value otherwise
(which may itself be 0.0, e.g. on "0"). -/
theorem claim_C10_theorem (v : Option String) :
    (v = none → safe_float v = Dec.zero) ∧
      (∀ s, v = some s → pyFloat s = none → safe_float v = Dec.zero) ∧
      (∀ s q, v = some s → pyFloat s = some q → safe_float v = q) := by
  refine ⟨?_, ?_, ?_⟩
  · intro h; subst h; rfl
  · intro s hv hp; subst hv; simp [safe_float, hp]
  · intro s q hv hp; subst hv; simp [safe_float, hp]

theorem Dec.toRat_neg (d : Dec) : d.neg.toRat = -d.toRat := by
  simp [Dec.toRat, Dec.neg, neg_div]

theorem Dec.pow_pos (n : Nat) : (0 : ℚ) < (10 : ℚ) ^ n := by positivity

theorem Dec.blt_iff (a b : Dec) : a.blt b = true ↔ a.toRat < b.toRat := by
  rw [Dec.blt, decide_eq_true_iff]
  constructor
  · intro h
    rw [Dec.toRat, Dec.toRat, div_lt_div_iff₀ (Dec.pow_pos a.scale) (Dec.pow_pos b.scale)]
    exact_mod_cast h
  · intro h
    rw [Dec.toRat, Dec.toRat, div_lt_div_iff₀ (Dec.pow_pos a.scale) (Dec.pow_pos b.scale)] at h
    exact_mod_cast h

theorem Dec.beq_iff (a b : Dec) : a.beq b = true ↔ a.toRat = b.toRat := by
  rw [Dec.beq, decide_eq_true_iff]
  constructor
  · intro h
    rw [Dec.toRat, Dec.toRat, div_eq_div_iff (ne_of_gt (Dec.pow_pos a.scale))
      (ne_of_gt (Dec.pow_pos b.scale))]
    exact_mod_cast h
  · intro h
    rw [Dec.toRat, Dec.toRat, div_eq_div_iff (ne_of_gt (Dec.pow_pos a.scale))
      (ne_of_gt (Dec.pow_pos b.scale))] at h
    exact_mod_cast h

theorem qpairLt_iff (a b : Dec × Dec) :
    qpairLt a b = true ↔
      (a.1.toRat < b.1.toRat ∨ (a.1.toRat = b.1.toRat ∧ a.2.toRat < b.2.toRat)) := by
  rw [qpairLt, Bool.or_eq_true, Bool.and_eq_true, Dec.blt_iff, Dec.beq_iff, Dec.blt_iff]

theorem qpairLt_false_iff (a b : Dec × Dec) :
    qpairLt b a = false ↔
      (a.1.toRat < b.1.toRat ∨ (a.1.toRat = b.1.toRat ∧ a.2.toRat ≤ b.2.toRat)) := by
  rw [← Bool.not_eq_true, qpairLt_iff]
  constructor
  · intro h
    push_neg at h
    rcases lt_trichotomy a.1.toRat b.1.toRat with h1 | h1 | h1
    · left; exact h1
    · right
      refine ⟨h1, ?_⟩
      have := h.2 h1.symm
      linarith
    · exfalso; linarith [h.1]
  · intro h hcon
    rcases h with h1 | ⟨h1, h2⟩ <;> rcases hcon with hc1 | ⟨hc1, hc2⟩ <;> linarith

theorem qpairLt_asym (a b : Dec × Dec) (h : qpairLt a b = true) : qpairLt b a = false := by
  rw [qpairLt_iff] at h
  rw [qpairLt_false_iff]
  rcases h with h | ⟨h1, h2⟩
  · left; exact h
  · right; exact ⟨h1, le_of_lt h2⟩

theorem qpairLt_negtrans (a b c : Dec × Dec) (h : qpairLt c a = true) :
    qpairLt b a = true ∨ qpairLt c b = true := by
  rw [qpairLt_iff] at h
  rw [qpairLt_iff, qpairLt_iff]
  rcases h with h1 | ⟨h1, h2⟩
  · rcases lt_trichotomy b.1.toRat a.1.toRat with hb | hb | hb
    · left; left; exact hb
    · right; left; linarith
    · right; left; linarith
  · rcases lt_trichotomy b.1.toRat a.1.toRat with hb | hb | hb
    · left; left; exact hb
    · rcases lt_trichotomy b.2.toRat a.2.toRat with h2b | h2b | h2b
      · left; right; exact ⟨hb, h2b⟩
      · right; right; exact ⟨by linarith, by linarith⟩
      · right; right; exact ⟨by linarith, by linarith⟩
    · right; left; linarith

theorem insertLt_perm {α : Type} (lt : α → α → Bool) (x : α) (l : List α) :
    (insertLt lt x l).Perm (x :: l) := by
  induction l with
  | nil => simp [insertLt]
  | cons y ys ih =>
    rw [insertLt]
    by_cases h : lt x y = true
    · rw [if_pos h]
    · rw [if_neg h]
      exact (ih.cons y).trans (List.Perm.swap x y ys)

theorem pySorted_perm {α : Type} (lt : α → α → Bool) (l : List α) :
    (pySorted lt l).Perm l := by
  suffices h : ∀ acc : List α,
      (l.foldl (fun acc x => insertLt lt x acc) acc).Perm (acc ++ l) by
    simpa using h []
  induction l with
  | nil => intro acc; simp
  | cons x xs ih =>
    intro acc
    simp only [List.foldl_cons]
    have h1 := ih (insertLt lt x acc)
    have h2 : (insertLt lt x acc ++ xs).Perm (acc ++ x :: xs) :=
      ((insertLt_perm lt x acc).append_right xs).trans List.perm_middle.symm
    exact h1.trans h2

theorem mem_insertLt {α : Type} (lt : α → α → Bool) (x : α) (l : List α) (w : α) :
    w ∈ insertLt lt x l ↔ w = x ∨ w ∈ l := by
  rw [(insertLt_perm lt x l).mem_iff, List.mem_cons]

theorem insertLt_pairwise {α : Type} (lt : α → α → Bool)
    (hasym : ∀ a b, lt a b = true → lt b a = false)
    (hneg : ∀ a b c, lt c a = true → lt b a = true ∨ lt c b = true)
    (x : α) (l : List α)
    (h : List.Pairwise (fun a b => lt b a = false) l) :
    List.Pairwise (fun a b => lt b a = false) (insertLt lt x l) := by
  induction l with
  | nil => simp [insertLt]
  | cons y ys ih =>
    rw [List.pairwise_cons] at h
    obtain ⟨hy, hys⟩ := h
    rw [insertLt]
    by_cases hxy : lt x y = true
    · rw [if_pos hxy, List.pairwise_cons]
      constructor
      · intro z hz
        rcases List.mem_cons.mp hz with hz1 | hz2
        · subst hz1; exact hasym x z hxy
        · cases hzx : lt z x with
          | false => rfl
          | true =>
            rcases hneg x y z hzx with h1 | h2
            · rw [hasym x y hxy] at h1; exact absurd h1 (by simp)
            · rw [hy z hz2] at h2; exact absurd h2 (by simp)
      · rw [List.pairwise_cons]; exact ⟨hy, hys⟩
    · rw [if_neg hxy, List.pairwise_cons]
      constructor
      · intro w hw
        rcases (mem_insertLt lt x ys w).mp hw with hw1 | hw2
        · subst hw1; exact Bool.eq_false_iff.mpr hxy
        · exact hy w hw2
      · exact ih hys

theorem pySorted_pairwise {α : Type} (lt : α → α → Bool)
    (hasym : ∀ a b, lt a b = true → lt b a = false)
    (hneg : ∀ a b c, lt c a = true → lt b a = true ∨ lt c b = true)
    (l : List α) :
    List.Pairwise (fun a b => lt b a = false) (pySorted lt l) := by
  suffices h : ∀ acc : List α, List.Pairwise (fun a b => lt b a = false) acc →
      List.Pairwise (fun a b => lt b a = false)
        (l.foldl (fun acc x => insertLt lt x acc) acc) by
    exact h [] List.Pairwise.nil
  induction l with
  | nil => intro acc h; exact h
  | cons x xs ih =>
    intro acc h
    exact ih (insertLt lt x acc) (insertLt_pairwise lt hasym hneg x acc h)

theorem sortKeyLt_false_iff (metric : Metric) (a b : Row) :
    qpairLt (sort_key metric b) (sort_key metric a) = false ↔
      (metricVal metric a > metricVal metric b ∨
        (metricVal metric a = metricVal metric b ∧ bwVal a ≤ bwVal b)) := by
  rw [qpairLt_false_iff]
  simp only [sort_key, Dec.toRat_neg]
  constructor
  · rintro (h | ⟨h1, h2⟩)
    · left; rw [gt_iff_lt, ← neg_lt_neg_iff]; exact h
    · right; exact ⟨by rw [← neg_inj]; exact h1, h2⟩
  · rintro (h | ⟨h1, h2⟩)
    · left; rw [neg_lt_neg_iff]; exact h
    · right; exact ⟨by rw [neg_inj]; exact h1, h2⟩

/-- C3: for every cohort and every metric, the selection of
print_group_metric_table is the 3-element prefix of a permutation of the
cohort sorted descending by the metric's value (missing/unparseable as 0)
with ties broken by ascending bodyweight (missing/unparseable as 0), and its
length is exactly min 3 (cohort size) — never more than 3, fewer only when
the cohort is smaller. -/
theorem claim_C3_theorem (metric : Metric) (athletes : List Row) :
    ∃ s : List Row, s.Perm athletes ∧
      List.Pairwise (fun a b => metricVal metric a > metricVal metric b ∨
        (metricVal metric a = metricVal metric b ∧ bwVal a ≤ bwVal b)) s ∧
      top_athletes metric athletes = s.take 3 ∧
      (top_athletes metric athletes).length = min 3 athletes.length := by
  refine ⟨pySorted (fun a b => qpairLt (sort_key metric a) (sort_key metric b)) athletes,
    pySorted_perm _ athletes, ?_, rfl, ?_⟩
  · have hp := pySorted_pairwise (fun a b => qpairLt (sort_key metric a) (sort_key metric b))
      (fun a b h => qpairLt_asym _ _ h)
      (fun a b c h => qpairLt_negtrans _ _ _ h) athletes
    exact hp.imp (fun hab => (sortKeyLt_false_iff metric _ _).mp hab)
  · rw [top_athletes, List.length_take,
      (pySorted_perm (fun a b => qpairLt (sort_key metric a) (sort_key metric b))
        athletes).length_eq]

/-- C10, witness: the amended theorem applied at the unparseable input "NS". -/
theorem claim_C10_witness :
    ((some "NS" : Option String) = none → safe_float (some "NS") = Dec.zero) ∧
      (∀ s, (some "NS" : Option String) = some s → pyFloat s = none →
        safe_float (some "NS") = Dec.zero) ∧
      (∀ s q, (some "NS" : Option String) = some s → pyFloat s = some q →
        safe_float (some "NS") = q) :=
  claim_C10_theorem (some "NS")

theorem charsLt_cons_iff (a b : Char) (as bs : List Char) :
    charsLt (a :: as) (b :: bs) = true ↔
      (a.toNat < b.toNat ∨ (a.toNat = b.toNat ∧ charsLt as bs = true)) := by
  simp [charsLt, Bool.or_eq_true, Bool.and_eq_true, decide_eq_true_iff]

theorem charsLt_iff (as bs : List Char) : charsLt as bs = true ↔ List.lt as bs := by
  induction as generalizing bs with
  | nil =>
    cases bs with
    | nil =>
      constructor
      · intro h; simp [charsLt] at h
      · intro h; cases h
    | cons b bs =>
      constructor
      · intro _; exact List.lt.nil b bs
      · intro _; rfl
  | cons a as ih =>
    cases bs with
    | nil =>
      constructor
      · intro h; simp [charsLt] at h
      · intro h; cases h
    | cons b bs =>
      rw [charsLt_cons_iff]
      constructor
      · rintro (h | ⟨h1, h2⟩)
        · exact List.lt.head as bs h
        · refine List.lt.tail ?_ ?_ ((ih bs).mp h2)
          · intro hab
            have hab' : a.toNat < b.toNat := hab
            omega
          · intro hba
            have hba' : b.toNat < a.toNat := hba
            omega
      · intro h
        cases h with
        | head _ _ hab => left; exact hab
        | tail h1 h2 h3 =>
          right
          have h1' : ¬a.toNat < b.toNat := h1
          have h2' : ¬b.toNat < a.toNat := h2
          exact ⟨by omega, (ih bs).mpr h3⟩

theorem strLt_iff (a b : String) : strLt a b = true ↔ a < b :=
  ((charsLt_iff a.data b.data).trans (List.lt_iff_lex_lt a.data b.data)).trans
    String.lt_iff_toList_lt.symm

theorem strLt_asym (a b : String) (h : strLt a b = true) : strLt b a = false := by
  rw [strLt_iff] at h
  rw [Bool.eq_false_iff]
  intro hc
  rw [strLt_iff] at hc
  exact absurd hc (lt_asymm h)

theorem strLt_negtrans (a b c : String) (h : strLt c a = true) :
    strLt b a = true ∨ strLt c b = true := by
  rw [strLt_iff] at h
  rw [strLt_iff, strLt_iff]
  by_cases hb : b < a
  · left; exact hb
  · right; exact lt_of_lt_of_le h (not_lt.mp hb)

theorem updateA_keys {κ β : Type} [BEq κ] [LawfulBEq κ] (m : List (κ × β)) (k : κ) (v : β) :
    (updateA m k v).map Prod.fst = m.map Prod.fst := by
  simp only [updateA, List.map_map]
  apply List.map_congr_left
  intro e he
  by_cases h0 : (e.1 == k) = true
  · simp [h0, eq_of_beq h0]
  · have h0' : ¬e.1 = k := by simpa using h0
    simp [h0']

theorem append_keys_nodup {κ β : Type} [BEq κ] [LawfulBEq κ] (m : List (κ × β)) (k : κ)
    (v : β) (h : (m.map Prod.fst).Nodup) (hlk : lookupA m k = none) :
    ((m ++ [(k, v)]).map Prod.fst).Nodup := by
  rw [List.map_append]
  apply (List.nodup_append).mpr
  refine ⟨h, List.nodup_singleton _, ?_⟩
  intro a ha hb
  simp at hb
  rcases List.mem_map.mp ha with ⟨e, he, hfst⟩
  have hnone := (lookupA_eq_none_iff m k).mp hlk e he
  rw [beq_eq_false_iff_ne] at hnone
  exact hnone (by rw [hfst, hb])

theorem addDiv_keys_nodup (m : List ((String × String) × List String))
    (k : String × String) (d : String) (h : (m.map Prod.fst).Nodup) :
    ((addDiv m k d).map Prod.fst).Nodup := by
  rw [addDiv]
  cases hlk : lookupA m k with
  | none =>
    show ((m ++ [(k, [d])]).map Prod.fst).Nodup
    exact append_keys_nodup m k [d] h hlk
  | some ds =>
    show ((updateA m k (if ds.contains d then ds else ds ++ [d])).map Prod.fst).Nodup
    rw [updateA_keys]
    exact h

theorem athdiv_keysNodup (rows : List Row) :
    ((athletes_divisions rows).map Prod.fst).Nodup := by
  suffices h : ∀ m : List ((String × String) × List String), (m.map Prod.fst).Nodup →
      ((rows.foldl (fun m r => if validRow r then addDiv m (identOf r) (trimDiv r) else m)
        m).map Prod.fst).Nodup from h [] List.nodup_nil
  induction rows with
  | nil => intro m h; exact h
  | cons r rs ih =>
    intro m h
    simp only [List.foldl_cons]
    apply ih
    by_cases hv : validRow r = true
    · rw [if_pos hv]; exact addDiv_keys_nodup m (identOf r) (trimDiv r) h
    · rw [if_neg hv]; exact h

theorem lookupA_athdivStep (m : List ((String × String) × List String)) (r : Row)
    (k : String × String) :
    lookupA (if validRow r then addDiv m (identOf r) (trimDiv r) else m) k =
      if (validRow r && (identOf r == k)) = true then addD (lookupA m k) (trimDiv r)
      else lookupA m k := by
  by_cases hv : validRow r = true
  · rw [if_pos hv]
    by_cases hk : (identOf r == k) = true
    · have hik : identOf r = k := eq_of_beq hk
      rw [if_pos (by rw [hv, hk]; rfl), addDiv, hik]
      cases hlk : lookupA m k with
      | none =>
        show lookupA (m ++ [(k, [trimDiv r])]) k = addD none (trimDiv r)
        rw [lookupA_append_single, hlk]
        simp [addD]
      | some ds =>
        show lookupA
            (updateA m k (if ds.contains (trimDiv r) then ds else ds ++ [trimDiv r])) k
          = addD (some ds) (trimDiv r)
        rw [lookupA_update_self m k _ ds hlk]
        simp [addD]
    · have hk' : (identOf r == k) = false := Bool.eq_false_iff.mpr hk
      rw [if_neg (by rw [hk']; simp), addDiv]
      cases hlk : lookupA m (identOf r) with
      | none =>
        show lookupA (m ++ [(identOf r, [trimDiv r])]) k = lookupA m k
        rw [lookupA_append_single]
        cases lookupA m k with
        | none => simp [hk']
        | some ds => simp
      | some ds =>
        show lookupA
            (updateA m (identOf r) (if ds.contains (trimDiv r) then ds else ds ++ [trimDiv r])) k
          = lookupA m k
        exact lookupA_update_ne m (identOf r) k _ hk'
  · have hv' : validRow r = false := Bool.eq_false_iff.mpr hv
    rw [if_neg hv, if_neg (by rw [hv']; simp)]

theorem lookupA_athdiv_fold (rows : List Row)
    (m : List ((String × String) × List String)) (k : String × String) :
    lookupA (rows.foldl (fun m r => if validRow r then addDiv m (identOf r) (trimDiv r) else m) m) k
      = accD (lookupA m k) (specDivs rows k) := by
  induction rows generalizing m with
  | nil => simp [specDivs, accD]
  | cons r rs ih =>
    simp only [List.foldl_cons]
    rw [ih, lookupA_athdivStep]
    have hfilter : specDivs (r :: rs) k =
        if (validRow r && (identOf r == k)) = true then trimDiv r :: specDivs rs k
        else specDivs rs k := by
      simp only [specDivs, List.filter_cons]
      split_ifs with h
      · rw [List.map_cons]
      · rfl
    rw [hfilter]
    split_ifs with h
    · simp [accD]
    · rfl

theorem athdiv_lookup (rows : List Row) (k : String × String) :
    lookupA (athletes_divisions rows) k = accD none (specDivs rows k) := by
  have h := lookupA_athdiv_fold rows [] k
  have h2 : lookupA ([] : List ((String × String) × List String)) k = none := rfl
  rw [h2] at h
  exact h

theorem accD_some (acc l : List String) :
    accD (some acc) l =
      some (l.foldl (fun acc d => if acc.contains d then acc else acc ++ [d]) acc) := by
  induction l generalizing acc with
  | nil => rfl
  | cons d ds ih =>
    show accD (addD (some acc) d) ds = _
    rw [show addD (some acc) d = some (if acc.contains d then acc else acc ++ [d]) from rfl]
    rw [ih]
    rfl

theorem accD_none (l : List String) :
    accD none l = if l = [] then none else some (fdedup l) := by
  cases l with
  | nil => rfl
  | cons d ds =>
    rw [if_neg (List.cons_ne_nil d ds)]
    show accD (addD none d) ds = some (fdedup (d :: ds))
    rw [show addD none d = some [d] from rfl, accD_some]
    rfl

theorem fdedupGo_mem (l : List String) :
    ∀ acc d, d ∈ fdedupGo acc l ↔ d ∈ acc ∨ d ∈ l := by
  induction l with
  | nil => intro acc d; simp [fdedupGo]
  | cons x xs ih =>
    intro acc d
    show d ∈ fdedupGo (if acc.contains x then acc else acc ++ [x]) xs ↔ _
    rw [ih]
    by_cases hc : acc.contains x = true
    · rw [if_pos hc]
      have hx : x ∈ acc := by simpa using hc
      simp only [List.mem_cons]
      constructor
      · rintro (h | h)
        · left; exact h
        · right; right; exact h
      · rintro (h | h | h)
        · left; exact h
        · left; exact h ▸ hx
        · right; exact h
    · rw [if_neg hc]
      simp only [List.mem_append, List.mem_singleton, List.mem_cons]
      tauto

theorem fdedupGo_nodup (l : List String) :
    ∀ acc, acc.Nodup → (fdedupGo acc l).Nodup := by
  induction l with
  | nil => intro acc h; exact h
  | cons x xs ih =>
    intro acc h
    show (fdedupGo (if acc.contains x then acc else acc ++ [x]) xs).Nodup
    by_cases hc : acc.contains x = true
    · rw [if_pos hc]; exact ih acc h
    · rw [if_neg hc]
      apply ih
      have hx : x ∉ acc := by simpa using hc
      apply (List.nodup_append).mpr
      refine ⟨h, List.nodup_singleton _, ?_⟩
      intro a ha hb
      simp at hb
      subst hb
      exact hx ha

theorem fdedup_length_eq_dedup (l : List String) : (fdedup l).length = l.dedup.length := by
  have h1 : (fdedup l).Nodup := fdedupGo_nodup l [] List.nodup_nil
  have h2 : l.dedup.Nodup := List.nodup_dedup l
  have hperm : (fdedup l).Perm l.dedup := by
    rw [List.perm_ext_iff_of_nodup h1 h2]
    intro a
    rw [List.mem_dedup, fdedup, fdedupGo_mem]
    simp
  exact hperm.length_eq

theorem fdedup_mem (l : List String) (d : String) : d ∈ fdedup l ↔ d ∈ l := by
  rw [fdedup, fdedupGo_mem]
  simp

theorem lookupA_filterMap {κ β β' : Type} [BEq κ] [LawfulBEq κ]
    (m : List (κ × β)) (hnd : (m.map Prod.fst).Nodup)
    (p : β → Prop) [DecidablePred p] (g : β → β') (k : κ) :
    lookupA (m.filterMap (fun e => if p e.2 then some (e.1, g e.2) else none)) k =
      Option.bind (lookupA m k) (fun v => if p v then some (g v) else none) := by
  induction m with
  | nil => rfl
  | cons e m ih =>
    have hnd' : (m.map Prod.fst).Nodup := (List.nodup_cons.mp hnd).2
    by_cases hp : p e.2
    · simp only [List.filterMap_cons, if_pos hp]
      by_cases hk : (e.1 == k) = true
      · rw [lookupA_cons, if_pos hk, lookupA_cons, if_pos hk]
        simp [hp]
      · rw [lookupA_cons, if_neg (by simp [hk]), lookupA_cons, if_neg (by simp [hk])]
        exact ih hnd'
    · simp only [List.filterMap_cons, if_neg hp]
      by_cases hk : (e.1 == k) = true
      · rw [lookupA_cons, if_pos hk]
        have hkeys : k ∉ m.map Prod.fst := by
          have := (List.nodup_cons.mp hnd).1
          rw [eq_of_beq hk] at this
          exact this
        have hmn : lookupA m k = none := by
          rw [lookupA_eq_none_iff]
          intro e' he'
          rw [beq_eq_false_iff_ne]
          intro hcon
          exact hkeys (hcon ▸ List.mem_map_of_mem Prod.fst he')
        rw [ih hnd', hmn]
        simp [hp]
      · rw [lookupA_cons, if_neg (by simp [hk])]
        exact ih hnd'

theorem duplicates_lookup (rows : List Row) (k : String × String) :
    lookupA (duplicates rows) k =
      Option.bind (lookupA (athletes_divisions rows) k)
        (fun ds => if 1 < ds.length then some (pySorted strLt ds) else none) :=
  lookupA_filterMap (athletes_divisions rows) (athdiv_keysNodup rows)
    (fun ds => 1 < ds.length) (fun ds => pySorted strLt ds) k

/-- C9: duplicate.py reports an identity iff, among rows with nonempty trimmed
Name/Sex/Division, that identity carries at least two distinct trimmed
divisions; what it reports is exactly the identity's distinct divisions
(same membership, no duplicates) in ascending string order. -/
theorem claim_C9_theorem (rows : List Row) (k : String × String) :
    (∀ ds, lookupA (duplicates rows) k = some ds →
      2 ≤ (specDivs rows k).dedup.length ∧
        List.Pairwise (fun a b : String => a ≤ b) ds ∧ ds.Nodup ∧
        (∀ d, d ∈ ds ↔ d ∈ specDivs rows k)) ∧
      (lookupA (duplicates rows) k = none → (specDivs rows k).dedup.length ≤ 1) := by
  have hdl := duplicates_lookup rows k
  rw [athdiv_lookup rows k, accD_none] at hdl
  by_cases hnil : specDivs rows k = []
  · rw [if_pos hnil] at hdl
    simp only [Option.none_bind] at hdl
    constructor
    · intro ds hds
      rw [hdl] at hds
      cases hds
    · intro _
      rw [hnil]
      simp
  · rw [if_neg hnil] at hdl
    simp only [Option.some_bind] at hdl
    by_cases hlen : 1 < (fdedup (specDivs rows k)).length
    · rw [if_pos hlen] at hdl
      constructor
      · intro ds hds
        rw [hdl] at hds
        have hds' : ds = pySorted strLt (fdedup (specDivs rows k)) :=
          (Option.some.injEq _ _ ▸ hds).symm
        subst hds'
        have hperm := pySorted_perm strLt (fdedup (specDivs rows k))
        refine ⟨?_, ?_, ?_, ?_⟩
        · rw [← fdedup_length_eq_dedup]; omega
        · have hp := pySorted_pairwise strLt strLt_asym strLt_negtrans
            (fdedup (specDivs rows k))
          refine hp.imp ?_
          intro a b hab
          show a ≤ b
          intro hba
          exact absurd ((strLt_iff b a).mpr hba) (by simp [hab])
        · exact hperm.nodup_iff.mpr (fdedupGo_nodup (specDivs rows k) [] List.nodup_nil)
        · intro d
          rw [hperm.mem_iff, fdedup_mem]
      · intro h
        rw [hdl] at h
        cases h
    · rw [if_neg hlen] at hdl
      constructor
      · intro ds hds
        rw [hdl] at hds
        cases hds
      · intro _
        rw [← fdedup_length_eq_dedup]
        omega

/-- C9, witness: on a concrete input with one athlete in Open and M2, the
reported divisions are exactly the sorted distinct pair. -/
theorem claim_C9_witness :
    2 ≤ (specDivs [rowC9a, rowC9b] ("Ann", "M")).dedup.length ∧
      List.Pairwise (fun a b : String => a ≤ b) ["M2", "Open"] ∧
      (["M2", "Open"] : List String).Nodup ∧
      (∀ d, d ∈ (["M2", "Open"] : List String) ↔ d ∈ specDivs [rowC9a, rowC9b] ("Ann", "M")) :=
  (claim_C9_theorem [rowC9a, rowC9b] ("Ann", "M")).1 ["M2", "Open"] (by decide)

end OpenLifter
